import Mathlib

/-!
Shallow embedding of the process-runner core:
PredictedProcess.run / PredictedProcess.memoize (src/PredictedProcess.ts) and
PredictedProcessesManager.runAll (src/PredictedProcessesManager.ts).

Modelling conventions:
- The promise body of run is modelled as a state machine over an ExecState.
  Node delivers events (close, error, abort) in some time order; we process an
  arbitrary finite list of events with a fold, mirroring the handlers
  registered in the source. A promise settles at most once; the first
  settlement wins, later ones are ignored, exactly as in the runtime.
- The close event in Node carries (code, signal): the exit code is null when
  the OS terminated the process with a signal. The handler in the source binds
  only the code parameter, so the model records both fields on the event but
  the handler reads only the code, as the source does.
- cleanup in the source is: childProcess?.removeAllListeners();
  childProcess?.kill(); childProcess = null. With a null handle the optional
  chaining makes it a no-op, so an effective teardown happens only when the
  handle is live; the model counts effective teardowns.
-/

namespace PredictedProcessModel

/-- Events that can be delivered to the handlers registered by run. -/
inductive Event
  | closed (code : Option Int) (sig : Option String)
  | errored (msg : String)
  | abortFired
deriving DecidableEq, Repr

/-- Terminal value of the promise returned by run. -/
inductive Outcome
  | resolved
  | exitFailure (code : Option Int)
  | spawnError (msg : String)
  | aborted
deriving DecidableEq, Repr

/-- State of one run invocation after the spawn. -/
structure ExecState where
  handle : Bool
  listeners : Bool
  abortListener : Bool
  settled : Option Outcome
  killed : Bool
  cleanups : Nat
deriving DecidableEq, Repr

/-- The cleanup closure of run: with a live handle it removes the process
listeners, kills the process and nulls the handle; with a null handle the
optional chaining makes every step a no-op. -/
def cleanup (s : ExecState) : ExecState :=
  if s.handle then
    { s with handle := false, listeners := false, killed := true,
             cleanups := s.cleanups + 1 }
  else s

/-- A promise settles at most once: the first terminal value wins. -/
def settle (s : ExecState) (o : Outcome) : ExecState :=
  match s.settled with
  | some _ => s
  | none => { s with settled := some o }

/-- Delivery of one event to the handlers registered by run. The abort
listener was registered once-only, so it detaches itself when it fires. The
close handler of the source binds only the exit code, so the signal field of
the event is not consulted. -/
def deliver (s : ExecState) (e : Event) : ExecState :=
  match e with
  | .abortFired =>
      if s.abortListener then
        settle (cleanup { s with abortListener := false }) .aborted
      else s
  | .closed code _sig =>
      if s.listeners then
        if code = some 0 then settle (cleanup s) .resolved
        else settle (cleanup s) (.exitFailure code)
      else s
  | .errored msg =>
      if s.listeners then settle (cleanup s) (.spawnError msg)
      else s

/-- State right after the spawn inside the promise body: live handle, close
and error listeners attached, abort listener attached when a signal object was
supplied. -/
def initExec (hasSignal : Bool) : ExecState :=
  { handle := true, listeners := true, abortListener := hasSignal,
    settled := none, killed := false, cleanups := 0 }

/-- The promise body of run: spawn, then process the delivered events. -/
def exec (hasSignal : Bool) (es : List Event) : ExecState :=
  es.foldl deliver (initExec hasSignal)

/-- An AbortSignal argument as run sees it: an object identity and whether it
is already in the aborted state at call time. -/
structure SignalArg where
  sid : Nat
  aborted : Bool
deriving DecidableEq, Repr

/-- Result of one call to run. -/
inductive CallResult
  | threwAlreadyAborted
  | threwAlreadyRunning
  | spawned (final : ExecState)
deriving DecidableEq, Repr

/-- The run method: the already-aborted guard, the busy guard, then the
promise body. busy is the state of the childProcess field at call time. -/
def run (signal : Option SignalArg) (busy : Bool) (es : List Event) : CallResult :=
  if (signal.map SignalArg.aborted).getD false then .threwAlreadyAborted
  else if busy then .threwAlreadyRunning
  else .spawned (exec signal.isSome es)

/-- Whether a call to run reached the spawn. -/
def CallResult.didSpawn : CallResult → Bool
  | .spawned _ => true
  | _ => false

/-- Scenario: a first call on an idle unit starts and its process is still
live when a second call arrives; afterwards the events of the first process
are delivered. The pair is (result of call one, result of call two); call two
observes a non-null childProcess field. -/
def secondCallWhileLive (sig1 sig2 : Option SignalArg) (es : List Event) :
    CallResult × CallResult :=
  (run sig1 false es, run sig2 true [])

/-!
The memoize wrapper of PredictedProcess. It captures two mutable variables,
lastSignal (initially undefined) and lastResult (initially null), and
reassigns this.run to a closure. JS compares the signal argument to
lastSignal with object identity; signals are modelled by an optional numeric
identity, none standing for the undefined argument. The model below covers
sequential use: each call settles before the next call is made, which is the
regime of the memoization claims; under that regime the catch handler of a
failing launch observes signal identical to lastSignal and nulls lastResult.
-/

/-- Settled value of a run promise: resolution or rejection with a reason. -/
inductive Settled
  | ok
  | err (reason : String)
deriving DecidableEq, Repr

/-- The two variables captured by the memoize closure. -/
structure MemoState where
  lastSignal : Option Nat
  lastResult : Option Settled
deriving DecidableEq, Repr

/-- Closure state right after memoize() is called. -/
def initMemo : MemoState := { lastSignal := none, lastResult := none }

/-- One sequential call through the memoized run. oracle is the settled value
the underlying original run would produce if it were launched on this call.
Returns (settled value of this call, whether the original run was invoked,
closure state afterwards). -/
def memoCall (st : MemoState) (sig : Option Nat) (oracle : Settled) :
    Settled × Bool × MemoState :=
  if sig = st.lastSignal then
    match st.lastResult with
    | some r => (r, false, st)
    | none => (oracle, true, st)
  else
    match oracle with
    | .ok => (.ok, true, { lastSignal := sig, lastResult := some .ok })
    | .err e => (.err e, true, { lastSignal := sig, lastResult := none })

/-!
Object-level view of memoize: the source reassigns this.run and returns this,
so the caller gets back the very same object, not a copy. Objects live in a
heap indexed by reference; memoize updates the record behind its receiver
reference in place and returns that same reference.
-/

/-- The observable fields of a PredictedProcess object: identity, command and
whether the run method has been replaced by the memoizing wrapper. -/
structure ProcRecord where
  pid : Nat
  command : String
  runWrapped : Bool
deriving DecidableEq, Repr

/-- A heap of PredictedProcess objects indexed by reference. -/
def Heap := Nat → ProcRecord

/-- memoize on the object behind ref: reassigns the run field of that object
in place and returns the receiver reference itself. -/
def memoizeObj (h : Heap) (ref : Nat) : Heap × Nat :=
  (Function.update h ref { h ref with runWrapped := true }, ref)

/-- A sample heap of unwrapped PredictedProcess objects. -/
def sampleHeap : Heap := fun n => { pid := n, command := "echo hi", runWrapped := false }

end PredictedProcessModel

namespace ManagerModel

/-!
PredictedProcessesManager.runAll: throws on an empty collection, otherwise
maps every process to process.run(signal) and awaits Promise.all of the
resulting promises. Each promise of the batch is abstracted by the time at
which it settles and its settled value (none for resolution, some reason for
rejection). Promise.all resolves, once every promise has resolved, at the
time the last one resolves; it rejects at the time of the earliest rejection
with that reason, without waiting for the remaining promises. Equal times are
broken towards the earlier list position.
-/

/-- One unit of the batch: when its run promise settles and with what. -/
structure UnitRun where
  time : Nat
  err : Option String
deriving DecidableEq, Repr

/-- The earliest rejection of the batch, if any. -/
def firstRejection : List UnitRun → Option UnitRun
  | [] => none
  | u :: rest =>
    match u.err, firstRejection rest with
    | none, r => r
    | some _, none => some u
    | some _, some v => some (if v.time < u.time then v else u)

/-- Time at which the last promise of the batch resolves. -/
def maxTime : List UnitRun → Nat
  | [] => 0
  | u :: rest => max u.time (maxTime rest)

/-- Settled result of a runAll call. -/
inductive RunAllResult
  | noProcesses
  | rejected (reason : String) (time : Nat)
  | resolvedAll (time : Nat)
deriving DecidableEq, Repr

/-- The runAll method: the empty-collection guard, then Promise.all over the
mapped run promises. -/
def runAll (us : List UnitRun) : RunAllResult :=
  match us with
  | [] => .noProcesses
  | _ :: _ =>
    match firstRejection us with
    | some v => .rejected (v.err.getD "") v.time
    | none => .resolvedAll (maxTime us)

/-- How many times runAll invokes a run method: the guard throws before the
map, so an empty collection invokes none. -/
def runCallCount (us : List UnitRun) : Nat :=
  match us with
  | [] => 0
  | _ :: _ => us.length

/-- When the runAll promise settles, if it does. -/
def RunAllResult.settleTime : RunAllResult → Option Nat
  | .noProcesses => none
  | .rejected _ t => some t
  | .resolvedAll t => some t

end ManagerModel

namespace PredictedProcessModel

lemma cleanup_settled (s : ExecState) : (cleanup s).settled = s.settled := by
  simp only [cleanup]; split <;> rfl

lemma cleanup_killed_mono (s : ExecState) (h : s.killed = true) :
    (cleanup s).killed = true := by
  simp only [cleanup]; split <;> simp [h]

lemma settle_of_settled (s : ExecState) (o o' : Outcome) (h : s.settled = some o) :
    (settle s o').settled = some o := by
  simp [settle, h]

lemma settle_killed (s : ExecState) (o : Outcome) : (settle s o).killed = s.killed := by
  simp only [settle]; split <;> rfl

lemma deliver_settled (s : ExecState) (e : Event) (o : Outcome)
    (h : s.settled = some o) : (deliver s e).settled = some o := by
  cases e with
  | abortFired =>
    simp only [deliver]; split
    · exact settle_of_settled _ _ _ ((cleanup_settled _).trans h)
    · exact h
  | closed code sig =>
    simp only [deliver]; split
    · split
      · exact settle_of_settled _ _ _ ((cleanup_settled _).trans h)
      · exact settle_of_settled _ _ _ ((cleanup_settled _).trans h)
    · exact h
  | errored msg =>
    simp only [deliver]; split
    · exact settle_of_settled _ _ _ ((cleanup_settled _).trans h)
    · exact h

lemma deliver_killed (s : ExecState) (e : Event) (h : s.killed = true) :
    (deliver s e).killed = true := by
  cases e with
  | abortFired =>
    simp only [deliver]; split
    · rw [settle_killed]; exact cleanup_killed_mono _ h
    · exact h
  | closed code sig =>
    simp only [deliver]; split
    · split <;> (rw [settle_killed]; exact cleanup_killed_mono _ h)
    · exact h
  | errored msg =>
    simp only [deliver]; split
    · rw [settle_killed]; exact cleanup_killed_mono _ h
    · exact h

lemma foldl_deliver_settled (es : List Event) :
    ∀ (s : ExecState) (o : Outcome), s.settled = some o →
      (es.foldl deliver s).settled = some o := by
  induction es with
  | nil => intro s o h; exact h
  | cons e rest ih => intro s o h; exact ih _ _ (deliver_settled s e o h)

lemma foldl_deliver_killed (es : List Event) :
    ∀ s : ExecState, s.killed = true → (es.foldl deliver s).killed = true := by
  induction es with
  | nil => intro s h; exact h
  | cons e rest ih => intro s h; exact ih _ (deliver_killed s e h)

/-- A run whose promise is still pending: live handle, listeners attached, no
teardown performed yet. -/
def Intact (s : ExecState) : Prop :=
  s.settled = none ∧ s.handle = true ∧ s.listeners = true ∧ s.cleanups = 0

/-- A run after teardown: handle nulled, process listeners removed, exactly
one effective teardown. -/
def TornDown (s : ExecState) : Prop :=
  s.handle = false ∧ s.listeners = false ∧ s.cleanups = 1

/-- The run promise settles exactly when teardown has happened, and teardown
is effective exactly once. -/
def ExecInv (s : ExecState) : Prop :=
  Intact s ∨ (s.settled ≠ none ∧ TornDown s)

lemma deliver_inv : ∀ (s : ExecState) (e : Event), ExecInv s → ExecInv (deliver s e) := by
  rintro ⟨sh, sl, sa, ss, sk, sc⟩ e (⟨h1, h2, h3, h4⟩ | ⟨h0, h1, h2, h3⟩)
  · dsimp only at h1 h2 h3 h4
    subst h1; subst h2; subst h3; subst h4
    cases e with
    | abortFired =>
      cases sa <;>
        simp [deliver, cleanup, settle, ExecInv, Intact, TornDown]
    | closed code sig =>
      by_cases hc : code = some 0 <;>
        simp [deliver, cleanup, settle, ExecInv, Intact, TornDown, hc]
    | errored msg =>
      simp [deliver, cleanup, settle, ExecInv, Intact, TornDown]
  · dsimp only at h0 h1 h2 h3
    subst h1; subst h2; subst h3
    rcases ss with _ | o
    · exact absurd rfl h0
    cases e with
    | abortFired =>
      cases sa <;>
        simp [deliver, cleanup, settle, ExecInv, Intact, TornDown]
    | closed code sig =>
      by_cases hc : code = some 0 <;>
        simp [deliver, cleanup, settle, ExecInv, Intact, TornDown, hc]
    | errored msg =>
      simp [deliver, cleanup, settle, ExecInv, Intact, TornDown]

lemma foldl_deliver_inv (es : List Event) :
    ∀ s : ExecState, ExecInv s → ExecInv (es.foldl deliver s) := by
  induction es with
  | nil => intro s h; exact h
  | cons e rest ih => intro s h; exact ih _ (deliver_inv s e h)

lemma exec_inv (hs : Bool) (es : List Event) : ExecInv (exec hs es) :=
  foldl_deliver_inv es _ (Or.inl ⟨rfl, rfl, rfl, rfl⟩)

end PredictedProcessModel

namespace PredictedProcessModel

/-- Claim C3: for a signal already in the aborted state at call time, run
throws the already-aborted error and never reaches the spawn, whatever the
busy state of the unit and whatever the process would have done. -/
theorem run_already_aborted_no_spawn (sig : SignalArg) (busy : Bool)
    (es : List Event) (h : sig.aborted = true) :
    run (some sig) busy es = .threwAlreadyAborted ∧
    (run (some sig) busy es).didSpawn = false := by
  simp [run, h, CallResult.didSpawn]

theorem run_already_aborted_no_spawn_witness :
    run (some ⟨0, true⟩) false [] = CallResult.threwAlreadyAborted :=
  (run_already_aborted_no_spawn ⟨0, true⟩ false [] rfl).1

/-- Claim C4: a second run call arriving while the first call still holds a
live process fails with the already-running error; the first call is left
exactly as an uninterfered run and, with its own signal not aborted, still
proceeds through the spawn and its own event deliveries. -/
theorem run_already_running_second_call (sig1 sig2 : Option SignalArg)
    (es : List Event) (h : (sig2.map SignalArg.aborted).getD false = false) :
    (secondCallWhileLive sig1 sig2 es).2 = .threwAlreadyRunning ∧
    (secondCallWhileLive sig1 sig2 es).1 = run sig1 false es ∧
    ((sig1.map SignalArg.aborted).getD false = false →
      (secondCallWhileLive sig1 sig2 es).1 = .spawned (exec sig1.isSome es)) := by
  refine ⟨?_, rfl, ?_⟩
  · simp [secondCallWhileLive, run, h]
  · intro h1
    simp [secondCallWhileLive, run, h1]

theorem run_already_running_second_call_witness :
    (secondCallWhileLive (some ⟨0, false⟩) (some ⟨0, false⟩)
        [Event.closed (some 0) none]).2 = CallResult.threwAlreadyRunning :=
  (run_already_running_second_call (some ⟨0, false⟩) (some ⟨0, false⟩)
      [Event.closed (some 0) none] rfl).1

/-- Claim C5: when the abort signal fires while the process is live, the run
settles as aborted and the process is killed; later termination events,
including a close with exit code zero, cannot change the settled outcome,
and the aborted outcome is distinct from resolution and from every exit
failure. -/
theorem run_abort_wins (es : List Event) (sg : Option String) :
    (exec true (Event.abortFired :: es)).settled = some Outcome.aborted ∧
    (exec true (Event.abortFired :: es)).killed = true ∧
    (exec true [Event.abortFired, Event.closed (some 0) sg]).settled =
      some Outcome.aborted ∧
    Outcome.aborted ≠ Outcome.resolved ∧
    ∀ c : Option Int, Outcome.aborted ≠ Outcome.exitFailure c := by
  have h1 : (deliver (initExec true) Event.abortFired).settled =
      some Outcome.aborted := by
    simp [deliver, initExec, cleanup, settle]
  have h2 : (deliver (initExec true) Event.abortFired).killed = true := by
    simp [deliver, initExec, cleanup, settle]
  refine ⟨?_, ?_, ?_, by simp, by intro c; simp⟩
  · exact foldl_deliver_settled es _ _ h1
  · exact foldl_deliver_killed es _ h2
  · exact foldl_deliver_settled [Event.closed (some 0) sg] _ _ h1

theorem run_abort_wins_witness :
    (exec true [Event.abortFired, Event.closed (some 0) none]).settled =
      some Outcome.aborted :=
  (run_abort_wins [Event.closed (some 0) none] none).2.2.1

/-- Claim C7: whenever a run settles, on any event path and under any race
between termination and abort, the handle is released, the process listeners
are detached, the effective teardown happened exactly once, and a subsequent
run call on the now idle unit reaches the spawn again. -/
theorem run_teardown_exactly_once (hs : Bool) (es : List Event)
    (h : (exec hs es).settled ≠ none) :
    (exec hs es).handle = false ∧ (exec hs es).listeners = false ∧
    (exec hs es).cleanups = 1 ∧
    ∀ (k : Nat) (es2 : List Event),
      run (some ⟨k, false⟩) (exec hs es).handle es2 = .spawned (exec true es2) := by
  rcases exec_inv hs es with ⟨h1, h2, h3, h4⟩ | ⟨h0, h1, h2, h3⟩
  · exact absurd h1 h
  · refine ⟨h1, h2, h3, ?_⟩
    intro k es2
    rw [h1]
    simp [run]

theorem run_teardown_exactly_once_witness :
    (exec true [Event.closed (some 0) none]).cleanups = 1 :=
  (run_teardown_exactly_once true [Event.closed (some 0) none] (by decide)).2.2.1

/-- Claim C2 counterexample: a process terminated by an OS signal delivers a
close event whose exit code is null; run settles it as an exit failure
carrying the null code, and the settled outcome is identical under different
signals, so the failure does not carry the signal or cause. -/
theorem termination_signal_cex :
    (exec true [Event.closed none (some "SIGTERM")]).settled =
      some (Outcome.exitFailure none) ∧
    (exec true [Event.closed none (some "SIGKILL")]).settled =
      (exec true [Event.closed none (some "SIGTERM")]).settled :=
  ⟨rfl, rfl⟩

/-- Claim C2 amended: close with exit code zero settles the run as resolved;
close with a non-zero code settles it as an exit failure carrying that code;
close with a null code, the shape Node delivers for a signal-killed process,
settles it as an exit failure carrying the null code, never as resolved, and
the outcome does not depend on which signal killed the process because the
close handler binds only the code parameter. -/
theorem termination_mapping (hs : Bool) (c : Int) (hnz : c ≠ 0)
    (sg : Option String) :
    (exec hs [Event.closed (some 0) sg]).settled = some Outcome.resolved ∧
    (exec hs [Event.closed (some c) sg]).settled =
      some (Outcome.exitFailure (some c)) ∧
    (exec hs [Event.closed none sg]).settled =
      some (Outcome.exitFailure none) ∧
    (∀ (code : Option Int) (s1 s2 : Option String),
      exec hs [Event.closed code s1] = exec hs [Event.closed code s2]) ∧
    some (Outcome.exitFailure none) ≠ some Outcome.resolved := by
  refine ⟨?_, ?_, ?_, fun code s1 s2 => rfl, by simp⟩
  · simp [exec, deliver, initExec, cleanup, settle]
  · simp [exec, deliver, initExec, cleanup, settle, hnz]
  · simp [exec, deliver, initExec, cleanup, settle]

theorem termination_mapping_witness :
    (exec true [Event.closed (some 7) none]).settled =
      some (Outcome.exitFailure (some 7)) :=
  (termination_mapping true 7 (by decide) none).2.1

end PredictedProcessModel

namespace ManagerModel

lemma firstRejection_eq_none_iff (us : List UnitRun) :
    firstRejection us = none ↔ ∀ u ∈ us, u.err = none := by
  induction us with
  | nil => simp [firstRejection]
  | cons u rest ih =>
    cases hu : u.err with
    | none =>
      simp [firstRejection, hu, ih]
    | some e =>
      cases hr : firstRejection rest <;> simp [firstRejection, hu, hr]

lemma firstRejection_spec (us : List UnitRun) (v : UnitRun)
    (h : firstRejection us = some v) :
    v ∈ us ∧ v.err ≠ none ∧ ∀ w ∈ us, w.err ≠ none → v.time ≤ w.time := by
  induction us generalizing v with
  | nil => simp [firstRejection] at h
  | cons u rest ih =>
    cases hu : u.err with
    | none =>
      rw [firstRejection, hu] at h
      obtain ⟨hmem, herr, hmin⟩ := ih v h
      refine ⟨List.mem_cons_of_mem _ hmem, herr, ?_⟩
      intro w hw hwe
      rcases List.mem_cons.mp hw with rfl | hw2
      · exact absurd hu hwe
      · exact hmin w hw2 hwe
    | some e =>
      rw [firstRejection, hu] at h
      cases hr : firstRejection rest with
      | none =>
        rw [hr] at h
        obtain rfl := Option.some.inj h
        refine ⟨List.mem_cons_self _ _, by simp [hu], ?_⟩
        intro w hw hwe
        rcases List.mem_cons.mp hw with rfl | hw2
        · exact le_refl _
        · exact absurd ((firstRejection_eq_none_iff rest).mp hr w hw2) hwe
      | some v0 =>
        rw [hr] at h
        obtain ⟨hmem0, herr0, hmin0⟩ := ih v0 hr
        obtain rfl := Option.some.inj h
        by_cases hlt : v0.time < u.time
        · rw [if_pos hlt]
          refine ⟨List.mem_cons_of_mem _ hmem0, herr0, ?_⟩
          intro w hw hwe
          rcases List.mem_cons.mp hw with rfl | hw2
          · exact le_of_lt hlt
          · exact hmin0 w hw2 hwe
        · rw [if_neg hlt]
          refine ⟨List.mem_cons_self _ _, by simp [hu], ?_⟩
          intro w hw hwe
          rcases List.mem_cons.mp hw with rfl | hw2
          · exact le_refl _
          · exact le_trans (Nat.le_of_not_lt hlt) (hmin0 w hw2 hwe)

lemma le_maxTime (us : List UnitRun) (u : UnitRun) (hu : u ∈ us) :
    u.time ≤ maxTime us := by
  induction us with
  | nil => simp at hu
  | cons v rest ih =>
    rcases List.mem_cons.mp hu with rfl | h
    · exact le_max_left _ _
    · exact le_trans (ih h) (le_max_right _ _)

end ManagerModel

namespace PredictedProcessModel

/-- Claim C6: through the memoized run with one provided signal, a first call
that succeeds launches the underlying run once and the second call with the
same signal is served from the cache without another launch; a first call
that fails makes the second call with the same signal launch again. -/
theorem memoize_idempotence (k : Nat) (o2 : Settled) (e : String) :
    (memoCall initMemo (some k) .ok).2.1 = true ∧
    (memoCall (memoCall initMemo (some k) .ok).2.2 (some k) o2).2.1 = false ∧
    (memoCall (memoCall initMemo (some k) .ok).2.2 (some k) o2).1 = .ok ∧
    (memoCall initMemo (some k) (.err e)).2.1 = true ∧
    (memoCall (memoCall initMemo (some k) (.err e)).2.2 (some k) o2).2.1 = true := by
  simp [memoCall, initMemo]

/-- Claim C10: memoize returns the very reference it was called on, preserves
the identity and command of the object behind it, marks the run method of
that object as wrapped in place, and leaves every other object untouched, so
every alias of the original object now runs through the wrapper. -/
theorem memoize_same_object (h : Heap) (ref : Nat) :
    (memoizeObj h ref).2 = ref ∧
    ((memoizeObj h ref).1 ref).pid = (h ref).pid ∧
    ((memoizeObj h ref).1 ref).command = (h ref).command ∧
    ((memoizeObj h ref).1 ref).runWrapped = true ∧
    ∀ r, r ≠ ref → (memoizeObj h ref).1 r = h r := by
  refine ⟨rfl, ?_, ?_, ?_, ?_⟩
  · simp [memoizeObj]
  · simp [memoizeObj]
  · simp [memoizeObj]
  · intro r hr
    simp [memoizeObj, Function.update_noteq hr]

theorem memoize_same_object_witness :
    (memoizeObj sampleHeap 3).1 7 = sampleHeap 7 :=
  (memoize_same_object sampleHeap 3).2.2.2.2 7 (by decide)

end PredictedProcessModel

namespace ManagerModel

/-- Claim C8: runAll over the empty collection throws the no-processes error
and invokes no run method, so no process primitive is touched. -/
theorem runAll_empty_rejects :
    runAll [] = RunAllResult.noProcesses ∧ runCallCount [] = 0 :=
  ⟨rfl, rfl⟩

/-- Claim C9: runAll over a non-empty collection resolves exactly when every
unit resolved; any rejection it surfaces is the rejection of a failed unit
that settled no later than every other failed unit, and some rejection is
surfaced whenever some unit failed. -/
theorem runAll_aggregate (us : List UnitRun) (hne : us ≠ []) :
    ((∃ t, runAll us = RunAllResult.resolvedAll t) ↔ ∀ u ∈ us, u.err = none) ∧
    (∀ r t, runAll us = RunAllResult.rejected r t →
      ∃ v, v ∈ us ∧ v.err = some r ∧ v.time = t ∧
        ∀ w ∈ us, w.err ≠ none → t ≤ w.time) ∧
    ((∃ v ∈ us, v.err ≠ none) → ∃ r t, runAll us = RunAllResult.rejected r t) := by
  cases us with
  | nil => exact absurd rfl hne
  | cons u rest =>
    cases hfr : firstRejection (u :: rest) with
    | none =>
      have hall := (firstRejection_eq_none_iff _).mp hfr
      refine ⟨⟨fun _ => hall, fun _ => ⟨maxTime (u :: rest), by simp [runAll, hfr]⟩⟩,
        ?_, ?_⟩
      · intro r t habs
        simp [runAll, hfr] at habs
      · rintro ⟨v, hv, hverr⟩
        exact absurd (hall v hv) hverr
    | some v =>
      obtain ⟨hmem, herr, hmin⟩ := firstRejection_spec _ v hfr
      obtain ⟨e, he⟩ := Option.ne_none_iff_exists'.mp herr
      refine ⟨⟨?_, ?_⟩, ?_, ?_⟩
      · rintro ⟨t, ht⟩
        simp [runAll, hfr] at ht
      · intro hall
        exact absurd (hall v hmem) herr
      · intro r t ht
        simp only [runAll, hfr, RunAllResult.rejected.injEq] at ht
        obtain ⟨hr, htt⟩ := ht
        refine ⟨v, hmem, ?_, htt, ?_⟩
        · rw [he, ← hr, he]
          rfl
        · intro w hw hwe
          exact htt ▸ hmin w hw hwe
      · exact fun _ => ⟨v.err.getD "", v.time, by simp [runAll, hfr]⟩

theorem runAll_aggregate_witness :
    ∃ t, runAll [⟨3, none⟩] = RunAllResult.resolvedAll t :=
  (runAll_aggregate [⟨3, none⟩] (by decide)).1.mpr (by decide)

/-- Claim C1 counterexample: with a unit rejecting at time 1 and a unit
resolving at time 5, runAll settles at time 1, before the second unit has
settled, so on failure it does short-circuit instead of waiting for every
unit to settle. -/
theorem runAll_short_circuit_cex :
    runAll [⟨1, some "boom"⟩, ⟨5, none⟩] = RunAllResult.rejected "boom" 1 ∧
    (runAll [⟨1, some "boom"⟩, ⟨5, none⟩]).settleTime = some 1 ∧
    (⟨5, none⟩ : UnitRun) ∈ [(⟨1, some "boom"⟩ : UnitRun), ⟨5, none⟩] ∧
    ¬ (∀ u ∈ [(⟨1, some "boom"⟩ : UnitRun), ⟨5, none⟩],
        u.time ≤
          ((runAll [(⟨1, some "boom"⟩ : UnitRun), ⟨5, none⟩]).settleTime).getD 0) := by
  refine ⟨rfl, rfl, by simp, by decide⟩

/-- Claim C1 amended: when every unit resolves, runAll settles as resolved at
the time the last unit settles, hence only after every unit has settled; but
when some unit rejects, runAll settles at the earliest rejection without
waiting for the remaining units, which continue unawaited. -/
theorem runAll_settles_amended (us : List UnitRun) (hne : us ≠ []) :
    ((∀ u ∈ us, u.err = none) →
      runAll us = RunAllResult.resolvedAll (maxTime us) ∧
      ∀ u ∈ us, u.time ≤ maxTime us) ∧
    (∀ v, v ∈ us → v.err ≠ none →
      ∃ r t, runAll us = RunAllResult.rejected r t ∧
        ∀ w ∈ us, w.err ≠ none → t ≤ w.time) := by
  cases us with
  | nil => exact absurd rfl hne
  | cons u rest =>
    constructor
    · intro hall
      have hfr : firstRejection (u :: rest) = none :=
        (firstRejection_eq_none_iff _).mpr hall
      exact ⟨by simp [runAll, hfr], fun w hw => le_maxTime _ w hw⟩
    · intro v hv hverr
      cases hfr : firstRejection (u :: rest) with
      | none =>
        exact absurd ((firstRejection_eq_none_iff _).mp hfr v hv) hverr
      | some v0 =>
        obtain ⟨hmem0, herr0, hmin0⟩ := firstRejection_spec _ v0 hfr
        exact ⟨v0.err.getD "", v0.time, by simp [runAll, hfr], hmin0⟩

theorem runAll_settles_amended_witness :
    runAll [(⟨2, none⟩ : UnitRun)] =
      RunAllResult.resolvedAll (maxTime [(⟨2, none⟩ : UnitRun)]) ∧
    ∀ u ∈ [(⟨2, none⟩ : UnitRun)], u.time ≤ maxTime [(⟨2, none⟩ : UnitRun)] :=
  (runAll_settles_amended [⟨2, none⟩] (by decide)).1 (by decide)

end ManagerModel
